import Mathlib

/-!
Verification of the inventory dynamic program (`inventory.py`).

The module solves a periodic-review inventory problem by backward induction
over a `(state, period)` lattice and then replays the resulting policy in a
forward simulation.  Real (float) arithmetic of the source is modelled by `ℚ`;
a numpy reduction over an empty array (which raises `ValueError` in the
source) is modelled by `Option`/`none` propagation.
-/

/-- Problem parameters of `InventoryDP.__init__` (`inventory.py`, lines 50-57).
`time_horizon`, `max_inventory` and `max_demand` are the integers `T`, `M`, `D`
of the declared domain (`T ≥ 1`, `M ≥ 0`, `D ≥ 0`); `holding_cost` and `price`
are the float parameters, modelled as rationals. -/
structure InventoryDP where
  time_horizon : Nat
  holding_cost : ℚ
  price : ℚ
  max_inventory : Nat
  max_demand : Nat
deriving DecidableEq

/-- The clip-and-penalise rule shared by `recurse` (lines 131-138) and
`simulate` (lines 220-227), which are textually identical in the source:
the raw next inventory is clipped to `[-max_inventory, max_inventory]` and a
penalty of `price * 2` is charged exactly when clipping occurred. -/
def clipPenalty (M : Nat) (price : ℚ) (raw : Int) : Int × ℚ :=
  if raw < -(M : Int) then (-(M : Int), price * 2)
  else if raw > (M : Int) then ((M : Int), price * 2)
  else (raw, 0)

/-- The cost of one `(order, demand)` scenario in `recurse` (lines 124-147):
holding cost on positive inventory, backorder cost on negative inventory,
the continuation value looked up in the next period's value column `vnext`,
plus the clipping penalty. -/
def scenarioCost (P : InventoryDP) (vnext : Nat → ℚ) (inv : Int)
    (order demand : Nat) : ℚ :=
  let c := clipPenalty P.max_inventory P.price (inv + order - demand)
  P.holding_cost * max 0 (c.1 : ℚ) + P.price * max 0 (-(c.1 : ℚ))
    + vnext (c.1 + P.max_inventory).toNat + c.2

/-- `possible_orders` of `recurse` (lines 113-114): the number of candidate
orders enumerated at actual inventory `inv`, namely
`max_inventory - inv + max_demand` (a nonnegative int for every reachable
state; `toNat` mirrors Python's empty `range` on nonpositive input). -/
def possible_orders (P : InventoryDP) (inv : Int) : Nat :=
  ((P.max_inventory : Int) - inv + P.max_demand).toNat

/-- The candidate orders enumerated by `for order in range(possible_orders)`
(line 120). -/
def candidate_orders (P : InventoryDP) (inv : Int) : List Nat :=
  List.range (possible_orders P inv)

/-- The expected cost of one candidate order: the scenario costs summed over
`demand in range(max_demand + 1)` (line 121) and divided by `max_demand + 1`
(line 150, `local_values.sum(axis=0) / (self.max_demand + 1)`). -/
def expectedCost (P : InventoryDP) (vnext : Nat → ℚ) (inv : Int)
    (order : Nat) : ℚ :=
  (((List.range (P.max_demand + 1)).map
      (fun demand => scenarioCost P vnext inv order demand)).sum)
    / (P.max_demand + 1)

/-- The row `expected_values` of one `(state, period)` cell: the expected cost
of every candidate order, in enumeration order. -/
def cellCosts (P : InventoryDP) (vnext : Nat → ℚ) (inv : Int) : List ℚ :=
  (candidate_orders P inv).map (fun order => expectedCost P vnext inv order)

/-- Scan of a list keeping the running minimum and the index of its first
occurrence, starting from value `m` at index `j`, the next element having
index `i`.  Models numpy's `min`/`argmin` pair (lines 153-154). -/
def minArgminAux (m : ℚ) (j : Nat) : List ℚ → Nat → ℚ × Nat
  | [], _ => (m, j)
  | x :: xs, i => if x < m then minArgminAux x i xs (i + 1)
                  else minArgminAux m j xs (i + 1)

/-- `expected_values.min()` paired with `expected_values.argmin()`
(lines 153-154).  numpy raises `ValueError` on an empty array, modelled by
`none`. -/
def minArgmin : List ℚ → Option (ℚ × Nat)
  | [] => none
  | x :: xs => some (minArgminAux x 0 xs 1)

/-- One cell of the backward pass: for `state` (index into `[0, 2M]`, so the
actual inventory is `state - max_inventory`, line 98) the minimum expected
cost and the arg-minimizing order. -/
def solveCell (P : InventoryDP) (vnext : Nat → ℚ) (state : Nat) :
    Option (ℚ × Nat) :=
  minArgmin (cellCosts P vnext ((state : Int) - P.max_inventory))

/-- The loop `for state in range(self._tree_height)` (line 89) for the first
`n` states, collecting each cell's `(value, decision)` pair; `none` as soon as
one cell fails. -/
def solveStates (P : InventoryDP) (vnext : Nat → ℚ) : Nat → Option (List (ℚ × Nat))
  | 0 => some []
  | n + 1 =>
    match solveStates P vnext n, solveCell P vnext n with
    | some l, some c => some (l ++ [c])
    | _, _ => none

/-- One column of each table: the values and the decisions of one period,
indexed by state. -/
abbrev Col := List ℚ × List Nat

/-- Default column for out-of-range lookups. -/
def emptyCol : Col := ([], [])

/-- The value column at the head of a column list, as a state-indexed
function (the `self._values[.., period + 1]` lookup of line 144). -/
def headVals (cols : List Col) : Nat → ℚ :=
  fun s => ((cols.getD 0 emptyCol).1).getD s 0

/-- One full period of the backward pass: all `2 * max_inventory + 1` states
(line 89, `range(self._tree_height)` with `_tree_height = 2 * max_inventory + 1`,
line 67). -/
def solvePeriod (P : InventoryDP) (vnext : Nat → ℚ) : Option Col :=
  match solveStates P vnext (2 * P.max_inventory + 1) with
  | none => none
  | some cells => some (cells.map Prod.fst, cells.map Prod.snd)

/-- The backward loop `for period in reversed(range(self.time_horizon))`
(line 88): `solveCols P k` is the list of table columns for the last `k + 1`
periods, the head being the earliest computed one and the last being the
all-zero terminal column created by `_initialize` (lines 67-70). -/
def solveCols (P : InventoryDP) : Nat → Option (List Col)
  | 0 => some [(List.replicate (2 * P.max_inventory + 1) 0,
                List.replicate (2 * P.max_inventory + 1) 0)]
  | k + 1 =>
    match solveCols P k with
    | none => none
    | some rest =>
      match solvePeriod P (headVals rest) with
      | none => none
      | some col => some (col :: rest)

/-- `InventoryDP.recurse` (lines 72-159): allocate zero tables and run the
backward pass over all `time_horizon` periods.  The result is the list of
columns for periods `0, …, time_horizon`; `none` models the `ValueError`
numpy raises when a cell's candidate-order array is empty. -/
def recurse (P : InventoryDP) : Option (List Col) :=
  solveCols P P.time_horizon

/-- `self._values[s, p]` of the solved tables. -/
def valueAt (cols : List Col) (s p : Nat) : ℚ := ((cols.getD p emptyCol).1).getD s 0

/-- `self._decisions[s, p]` of the solved tables. -/
def decisionAt (cols : List Col) (s p : Nat) : Nat := ((cols.getD p emptyCol).2).getD s 0

/-- The value column of period `p` as a state-indexed function. -/
def colVals (cols : List Col) (p : Nat) : Nat → ℚ :=
  fun s => ((cols.getD p emptyCol).1).getD s 0

/-- The two errors `InventoryDP.simulate` can raise: `ValueError` for an
out-of-range `initial_inventory` (line 190) and `RuntimeError` when
`recurse` was not run before (line 194). -/
inductive SimError where
  | outOfRange
  | notSolved
deriving DecidableEq

/-- One period of the forward simulation (lines 203-234): look the order up in
the decision table at `initial_inventory + max_inventory`, apply the demand,
clip and penalise, and return the new inventory, the order, and the period's
realized cost. -/
def simStep (P : InventoryDP) (cols : List Col) (demand period : Nat)
    (inv : Int) : Int × Nat × ℚ :=
  let order := decisionAt cols (inv + P.max_inventory).toNat period
  let c := clipPenalty P.max_inventory P.price (inv + order - demand)
  (c.1, order,
    P.holding_cost * max 0 (c.1 : ℚ) + P.price * max 0 (-(c.1 : ℚ)) + c.2)

/-- The simulation loop over the remaining periods (`n` of them, the next one
being `p`), with demand draws supplied by `dem` (the injected random source).
Returns accumulated costs and the order and demand sequences. -/
def simGo (P : InventoryDP) (cols : List Col) (dem : Nat → Nat) (inv : Int)
    (p : Nat) : Nat → ℚ × List Nat × List Nat
  | 0 => (0, [], [])
  | n + 1 =>
    let r := simStep P cols (dem p) p inv
    let rest := simGo P cols dem r.1 (p + 1) n
    (r.2.2 + rest.1, r.2.1 :: rest.2.1, dem p :: rest.2.2)

/-- `InventoryDP.simulate` (lines 161-236).  `solved` is `some cols` when
`recurse` has produced the tables and `none` for a freshly constructed
instance (`self._tree_height is None`).  The source first checks
`0 <= initial_inventory <= abs(self.max_inventory)` (line 189; `abs` is the
identity on the nonnegative `max_inventory`) and only then the
missing-solve precondition (line 193). -/
def simulate (P : InventoryDP) (solved : Option (List Col))
    (initial_inventory : Int) (dem : Nat → Nat) :
    Except SimError (ℚ × List Nat × List Nat) :=
  if 0 ≤ initial_inventory ∧ initial_inventory ≤ (P.max_inventory : Int) then
    match solved with
    | none => .error .notSolved
    | some cols => .ok (simGo P cols dem initial_inventory 0 P.time_horizon)
  else .error .outOfRange

/-- The parameter set `P` with its holding cost replaced by `q` and every
other parameter unchanged. -/
def withHolding (P : InventoryDP) (q : ℚ) : InventoryDP :=
  { P with holding_cost := q }

/-- The default parameters of the reference tool
(`time_horizon=10, holding_cost=5, price=100, max_inventory=100, max_demand=10`). -/
def Pbig : InventoryDP := ⟨10, 5, 100, 100, 10⟩

/-- A small instance (`T=1, h=5, price=100, M=1, D=1`) used for concrete
witnesses. -/
def Psmall : InventoryDP := ⟨1, 5, 100, 1, 1⟩

/-- `Psmall` with holding cost 6 instead of 5. -/
def Pmid : InventoryDP := ⟨1, 6, 100, 1, 1⟩

/-- `Psmall` with holding cost 300 instead of 5. -/
def Psteep : InventoryDP := ⟨1, 300, 100, 1, 1⟩

/-- The tables `recurse` computes for `Psmall`. -/
def colsSmall : List Col := [([5/2, 5/2, 5/2], [2, 1, 0]), ([0, 0, 0], [0, 0, 0])]

/-- The tables `recurse` computes for `Pmid`. -/
def colsMid : List Col := [([3, 3, 3], [2, 1, 0]), ([0, 0, 0], [0, 0, 0])]

/-- The tables `recurse` computes for `Psteep`. -/
def colsSteep : List Col := [([50, 50, 150], [1, 0, 0]), ([0, 0, 0], [0, 0, 0])]

/-- A constant zero demand source for concrete simulation witnesses. -/
def demZero : Nat → Nat := fun _ => 0

/-! ### List helpers -/

/-- `getD` of a list at an in-range index is a member. -/
theorem getD_mem_of_lt {α : Type} {l : List α} (d : α) {n : Nat}
    (h : n < l.length) : l.getD n d ∈ l := by
  rw [List.getD_eq_getElem l d h]
  exact List.getElem_mem h

/-- `getD` of a replicated list with matching default. -/
theorem replicate_getD {α : Type} (n s : Nat) (x : α) :
    (List.replicate n x).getD s x = x := by
  induction n generalizing s with
  | zero => simp
  | succ n ih =>
    cases s with
    | zero => simp
    | succ s => simp [ih s]

/-! ### Specification of the running min/argmin scan -/

/-- Full invariant of `minArgminAux`: the result is a lower bound of the seed
and of every element, and it is either the seed pair or a strictly smaller
element of the list at its first occurrence. -/
theorem minArgminAux_spec (xs : List ℚ) : ∀ (m : ℚ) (j i : Nat),
    ((minArgminAux m j xs i).1 ≤ m ∧ ∀ x ∈ xs, (minArgminAux m j xs i).1 ≤ x) ∧
    (minArgminAux m j xs i = (m, j) ∨
      ∃ t, t < xs.length ∧ (minArgminAux m j xs i).1 = xs.getD t 0 ∧
        (minArgminAux m j xs i).2 = i + t ∧ (minArgminAux m j xs i).1 < m ∧
        ∀ t', t' < t → (minArgminAux m j xs i).1 < xs.getD t' 0) := by
  induction xs with
  | nil =>
    intro m j i
    exact ⟨⟨le_refl m, by intro x hx; cases hx⟩, Or.inl rfl⟩
  | cons x xs ih =>
    intro m j i
    by_cases hx : x < m
    · have heq : minArgminAux m j (x :: xs) i = minArgminAux x i xs (i + 1) := by
        simp [minArgminAux, hx]
      rw [heq]
      obtain ⟨⟨h1, h2⟩, h3⟩ := ih x i (i + 1)
      refine ⟨⟨h1.trans (le_of_lt hx), ?_⟩, ?_⟩
      · intro y hy
        rcases List.mem_cons.mp hy with rfl | hy
        · exact h1
        · exact h2 y hy
      · rcases h3 with h3 | ⟨t, ht, hv, hidx, hlt, hfirst⟩
        · refine Or.inr ⟨0, by simp, ?_, ?_, ?_, ?_⟩
          · simp [h3]
          · simp [h3]
          · rw [h3]; exact hx
          · intro t' ht'; omega
        · refine Or.inr ⟨t + 1, ?_, ?_, ?_, ?_, ?_⟩
          · simpa using ht
          · simpa using hv
          · rw [hidx]; omega
          · exact lt_trans hlt hx
          · intro t' ht'
            cases t' with
            | zero => simpa using hlt
            | succ t'' => simpa using hfirst t'' (by omega)
    · have heq : minArgminAux m j (x :: xs) i = minArgminAux m j xs (i + 1) := by
        simp [minArgminAux, hx]
      rw [heq]
      obtain ⟨⟨h1, h2⟩, h3⟩ := ih m j (i + 1)
      push_neg at hx
      refine ⟨⟨h1, ?_⟩, ?_⟩
      · intro y hy
        rcases List.mem_cons.mp hy with rfl | hy
        · exact h1.trans hx
        · exact h2 y hy
      · rcases h3 with h3 | ⟨t, ht, hv, hidx, hlt, hfirst⟩
        · exact Or.inl h3
        · refine Or.inr ⟨t + 1, ?_, ?_, ?_, ?_, ?_⟩
          · simpa using ht
          · simpa using hv
          · rw [hidx]; omega
          · exact hlt
          · intro t' ht'
            cases t' with
            | zero => simpa using lt_of_lt_of_le hlt hx
            | succ t'' => simpa using hfirst t'' (by omega)

/-- Specification of `minArgmin`: when it succeeds, the returned index is
in range, the value is the list entry there, the value is a lower bound of
the whole list, and every strictly earlier entry is strictly larger (numpy's
first-occurrence `argmin`). -/
theorem minArgmin_spec {l : List ℚ} {v : ℚ} {k : Nat}
    (h : minArgmin l = some (v, k)) :
    k < l.length ∧ l.getD k 0 = v ∧ (∀ x ∈ l, v ≤ x) ∧
      ∀ j, j < k → v < l.getD j 0 := by
  match l with
  | [] => cases h
  | x :: xs =>
    have h' : minArgminAux x 0 xs 1 = (v, k) := by
      have := h
      simp only [minArgmin, Option.some.injEq] at this
      exact this
    obtain ⟨⟨h1, h2⟩, h3⟩ := minArgminAux_spec xs x 0 1
    rw [h'] at h1 h2 h3
    simp only at h1 h2 h3
    rcases h3 with h3 | ⟨t, ht, hv, hidx, hlt, hfirst⟩
    · have hvx : v = x := congrArg Prod.fst h3
      have hk0 : k = 0 := congrArg Prod.snd h3
      subst hvx; subst hk0
      refine ⟨by simp, by simp, ?_, by omega⟩
      intro y hy
      rcases List.mem_cons.mp hy with rfl | hy
      · exact le_refl _
      · exact h2 y hy
    · refine ⟨by simp; omega, ?_, ?_, ?_⟩
      · rw [hidx]
        have : 1 + t = t + 1 := by omega
        rw [this, List.getD_cons_succ]
        exact hv.symm
      · intro y hy
        rcases List.mem_cons.mp hy with rfl | hy
        · exact le_of_lt hlt
        · exact h2 y hy
      · intro j hj
        rw [hidx] at hj
        cases j with
        | zero => simpa using hlt
        | succ j' =>
          rw [List.getD_cons_succ]
          exact hfirst j' (by omega)

/-- The value of `minArgmin` on a cons is the `min` of the head and the value
on the tail. -/
theorem minArgmin_cons_val {x : ℚ} {l : List ℚ} {v w : ℚ} {k k' : Nat}
    (h1 : minArgmin (x :: l) = some (v, k)) (h2 : minArgmin l = some (w, k')) :
    v = min x w := by
  obtain ⟨hk, hgd, hlb, _⟩ := minArgmin_spec h1
  obtain ⟨hk', hgd', hlb', _⟩ := minArgmin_spec h2
  have hvx : v ≤ x := hlb x (by simp)
  have hw_mem : w ∈ l := hgd' ▸ getD_mem_of_lt 0 hk'
  have hvw : v ≤ w := hlb w (List.mem_cons_of_mem _ hw_mem)
  have hv_mem : v ∈ x :: l := hgd ▸ getD_mem_of_lt 0 hk
  rcases List.mem_cons.mp hv_mem with rfl | hv_mem
  · exact le_antisymm (le_min hvx hvw) (min_le_left _ _)
  · exact le_antisymm (le_min hvx hvw) (le_trans (min_le_right x w) (hlb' v hv_mem))

/-! ### Specification of the backward pass -/

/-- `solveStates` collects exactly the first `n` cells, in state order. -/
theorem solveStates_spec (P : InventoryDP) (v : Nat → ℚ) :
    ∀ n l, solveStates P v n = some l →
      l.length = n ∧ ∀ s, s < n → solveCell P v s = some (l.getD s (0, 0)) := by
  intro n
  induction n with
  | zero =>
    intro l h
    simp only [solveStates, Option.some.injEq] at h
    subst h
    exact ⟨rfl, by intro s hs; omega⟩
  | succ n ih =>
    intro l h
    unfold solveStates at h
    cases hs : solveStates P v n with
    | none => rw [hs] at h; cases h
    | some l0 =>
      cases hc : solveCell P v n with
      | none => rw [hs, hc] at h; cases h
      | some c =>
        rw [hs, hc] at h
        simp only [Option.some.injEq] at h
        subst h
        obtain ⟨hlen, hcell⟩ := ih l0 hs
        refine ⟨by simp [hlen], ?_⟩
        intro s hs'
        rcases Nat.lt_succ_iff_lt_or_eq.mp hs' with h' | rfl
        · rw [List.getD_append _ _ _ _ (by omega)]
          exact hcell s h'
        · rw [List.getD_eq_getElem _ _ (by simp [hlen]),
            List.getElem_append_right (by omega)]
          simp [hlen, hc]

/-- `solvePeriod` produces one full column: both lists have one entry per
state and the entry at state `s` is the cell solved at `s`. -/
theorem solvePeriod_spec (P : InventoryDP) (v : Nat → ℚ) (col : Col)
    (h : solvePeriod P v = some col) :
    col.1.length = 2 * P.max_inventory + 1 ∧
    col.2.length = 2 * P.max_inventory + 1 ∧
    ∀ s, s ≤ 2 * P.max_inventory →
      solveCell P v s = some (col.1.getD s 0, col.2.getD s 0) := by
  unfold solvePeriod at h
  cases hs : solveStates P v (2 * P.max_inventory + 1) with
  | none => rw [hs] at h; cases h
  | some cells =>
    rw [hs] at h
    simp only [Option.some.injEq] at h
    subst h
    obtain ⟨hlen, hcell⟩ := solveStates_spec P v _ cells hs
    refine ⟨by simp [hlen], by simp [hlen], ?_⟩
    intro s hs'
    have hlt : s < cells.length := by omega
    rw [hcell s (by omega)]
    have h1 : (cells.map Prod.fst).getD s 0 = (cells.getD s (0, 0)).1 := by
      rw [List.getD_eq_getElem _ _ (by simpa using hlt),
        List.getD_eq_getElem _ _ hlt, List.getElem_map]
    have h2 : (cells.map Prod.snd).getD s 0 = (cells.getD s (0, 0)).2 := by
      rw [List.getD_eq_getElem _ _ (by simpa using hlt),
        List.getD_eq_getElem _ _ hlt, List.getElem_map]
    rw [h1, h2]

/-- Unfolding of one step of the backward period loop. -/
theorem solveCols_succ (P : InventoryDP) (k : Nat) (cols : List Col)
    (h : solveCols P (k + 1) = some cols) :
    ∃ rest col, solveCols P k = some rest ∧
      solvePeriod P (headVals rest) = some col ∧ cols = col :: rest := by
  unfold solveCols at h
  cases hr : solveCols P k with
  | none => rw [hr] at h; cases h
  | some rest =>
    rw [hr] at h
    simp only at h
    cases hp : solvePeriod P (headVals rest) with
    | none => rw [hp] at h; cases h
    | some col =>
      rw [hp] at h
      simp only [Option.some.injEq] at h
      exact ⟨rest, col, rfl, hp, h.symm⟩

/-- The terminal column of the solved tables is the untouched all-zero column
allocated by `_initialize`. -/
theorem solveCols_last (P : InventoryDP) :
    ∀ k cols, solveCols P k = some cols →
      cols.getD k emptyCol = (List.replicate (2 * P.max_inventory + 1) 0,
                              List.replicate (2 * P.max_inventory + 1) 0) := by
  intro k
  induction k with
  | zero =>
    intro cols h
    simp only [solveCols, Option.some.injEq] at h
    subst h
    rfl
  | succ k ih =>
    intro cols h
    obtain ⟨rest, col, hr, _, rfl⟩ := solveCols_succ P k cols h
    simpa using ih rest hr

/-- Every computed column of the solved tables is the `minArgmin` cell of the
expected costs taken against the next column. -/
theorem solveCols_cell (P : InventoryDP) :
    ∀ k cols, solveCols P k = some cols → ∀ i, i < k → ∀ s, s ≤ 2 * P.max_inventory →
      solveCell P (colVals cols (i + 1)) s
        = some (valueAt cols s i, decisionAt cols s i) := by
  intro k
  induction k with
  | zero => intro cols h i hi; omega
  | succ k ih =>
    intro cols h i hi s hs
    obtain ⟨rest, col, hr, hp, rfl⟩ := solveCols_succ P k cols h
    cases i with
    | zero =>
      obtain ⟨_, _, hcell⟩ := solvePeriod_spec P (headVals rest) col hp
      have hv : colVals (col :: rest) 1 = headVals rest := by
        funext s'
        simp [colVals, headVals]
      rw [hv, hcell s hs]
      simp [valueAt, decisionAt]
    | succ i' =>
      have hv : colVals (col :: rest) (i' + 1 + 1) = colVals rest (i' + 1) := by
        funext s'
        simp [colVals]
      rw [hv]
      have := ih rest hr i' (by omega) s hs
      simpa [valueAt, decisionAt] using this

/-! ### Claim theorems: the backward induction (C1, C5, C6) -/

/-- C1: after `recurse()` completes, for every period `p < T` and state
`s ∈ [0, 2M]`, `value_table[s, p]` is the minimum of the expected costs of
the enumerated candidate orders (each expected cost averaging the
per-scenario clipped cost plus the continuation value from the already-solved
column `p+1` over the `D+1` equally likely demands), and
`decision_table[s, p]` is an order achieving that minimum. -/
theorem recurse_backward_induction (P : InventoryDP) (cols : List Col)
    (h : recurse P = some cols) (p : Nat) (hp : p < P.time_horizon)
    (s : Nat) (hs : s ≤ 2 * P.max_inventory) :
    valueAt cols s p ∈ cellCosts P (colVals cols (p + 1)) ((s : Int) - P.max_inventory) ∧
    (∀ c ∈ cellCosts P (colVals cols (p + 1)) ((s : Int) - P.max_inventory),
      valueAt cols s p ≤ c) ∧
    decisionAt cols s p
      < (cellCosts P (colVals cols (p + 1)) ((s : Int) - P.max_inventory)).length ∧
    (cellCosts P (colVals cols (p + 1)) ((s : Int) - P.max_inventory)).getD
      (decisionAt cols s p) 0 = valueAt cols s p := by
  have hc := solveCols_cell P P.time_horizon cols h p hp s hs
  have hm : minArgmin (cellCosts P (colVals cols (p + 1)) ((s : Int) - P.max_inventory))
      = some (valueAt cols s p, decisionAt cols s p) := hc
  obtain ⟨hk, hgd, hlb, _⟩ := minArgmin_spec hm
  exact ⟨hgd ▸ getD_mem_of_lt 0 hk, hlb, hk, hgd⟩

/-- Witness for C1 at `Psmall`, state 0, period 0. -/
theorem recurse_backward_induction_witness :
    valueAt colsSmall 0 0
      ∈ cellCosts Psmall (colVals colsSmall 1) ((0 : Int) - Psmall.max_inventory) ∧
    decisionAt colsSmall 0 0
      < (cellCosts Psmall (colVals colsSmall 1) ((0 : Int) - Psmall.max_inventory)).length ∧
    (cellCosts Psmall (colVals colsSmall 1) ((0 : Int) - Psmall.max_inventory)).getD
      (decisionAt colsSmall 0 0) 0 = valueAt colsSmall 0 0 := by
  obtain ⟨h1, _, h3, h4⟩ := recurse_backward_induction Psmall colsSmall
    (by with_unfolding_all rfl) 0 (by decide) 0 (by decide)
  exact ⟨h1, h3, h4⟩

/-- C5: after `recurse()` completes, the terminal column (period `T`) of the
value table is zero at every state, and the whole terminal column of both
tables is exactly the all-zero column allocated by `_initialize` — the
backward pass never writes to it. -/
theorem recurse_terminal_zero (P : InventoryDP) (cols : List Col)
    (h : recurse P = some cols) :
    (∀ s, s ≤ 2 * P.max_inventory → valueAt cols s P.time_horizon = 0) ∧
    cols.getD P.time_horizon emptyCol
      = (List.replicate (2 * P.max_inventory + 1) 0,
         List.replicate (2 * P.max_inventory + 1) 0) := by
  have hl := solveCols_last P P.time_horizon cols h
  refine ⟨?_, hl⟩
  intro s _
  unfold valueAt
  rw [hl]
  exact replicate_getD _ s 0

/-- Witness for C5 at `Psmall`. -/
theorem recurse_terminal_zero_witness :
    valueAt colsSmall 2 1 = 0 ∧
    colsSmall.getD 1 emptyCol = (List.replicate 3 0, List.replicate 3 0) := by
  obtain ⟨h1, h2⟩ := recurse_terminal_zero Psmall colsSmall (by with_unfolding_all rfl)
  exact ⟨h1 2 (by decide), h2⟩

/-- C6: ties in the expected costs are broken towards the smallest order
quantity (any candidate order whose expected cost equals the stored minimum
is at or after the stored decision), and a second solve with the identical
parameters yields the identical tables. -/
theorem recurse_tie_break (P : InventoryDP) (cols cols' : List Col)
    (h : recurse P = some cols) (h' : recurse P = some cols')
    (p : Nat) (hp : p < P.time_horizon) (s : Nat) (hs : s ≤ 2 * P.max_inventory)
    (j : Nat)
    (_hj : j < (cellCosts P (colVals cols (p + 1)) ((s : Int) - P.max_inventory)).length)
    (hval : (cellCosts P (colVals cols (p + 1)) ((s : Int) - P.max_inventory)).getD j 0
      = valueAt cols s p) :
    decisionAt cols s p ≤ j ∧ cols' = cols := by
  have hc := solveCols_cell P P.time_horizon cols h p hp s hs
  have hm : minArgmin (cellCosts P (colVals cols (p + 1)) ((s : Int) - P.max_inventory))
      = some (valueAt cols s p, decisionAt cols s p) := hc
  obtain ⟨_, _, _, hfirst⟩ := minArgmin_spec hm
  constructor
  · by_contra hcon
    push_neg at hcon
    have hlt := hfirst j hcon
    rw [hval] at hlt
    exact lt_irrefl _ hlt
  · rw [h] at h'
    injection h' with h''
    exact h''.symm

/-- Witness for C6 at `Psmall`, state 1, period 0, candidate index 1. -/
theorem recurse_tie_break_witness :
    decisionAt colsSmall 1 0 ≤ 1 ∧ colsSmall = colsSmall := by
  exact recurse_tie_break Psmall colsSmall colsSmall (by with_unfolding_all rfl)
    (by with_unfolding_all rfl) 0 (by decide) 1 (by decide) 1
    (by with_unfolding_all decide) (by with_unfolding_all rfl)

/-! ### Claim theorems: order enumeration (C2) and totality (C3) -/

/-- C2, counterexample: at the default parameters (`M = 100`, `D = 10`) and
actual inventory `inv = 95` (state 195), `M - inv + D = 15`, yet the order
`15` is not enumerated: the candidate list is `range(M - inv + D)`, which has
15 entries and largest element 14, not the claimed 16 entries up to 15. -/
theorem candidate_orders_claim_counterexample :
    (Pbig.max_inventory : Int) - 95 + Pbig.max_demand = 15 ∧
    (candidate_orders Pbig 95).length = 15 ∧
    15 ∉ candidate_orders Pbig 95 := by
  refine ⟨by decide, by decide, by decide⟩

/-- C2, amended: the solver enumerates exactly the orders
`0, …, M - inv + D - 1`, i.e. an order is a candidate iff it is strictly
below `M - inv + D`. -/
theorem candidate_orders_range (P : InventoryDP) (inv : Int) (o : Nat) :
    o ∈ candidate_orders P inv ↔
      (o : Int) < (P.max_inventory : Int) - inv + P.max_demand := by
  unfold candidate_orders possible_orders
  rw [List.mem_range]
  exact Int.lt_toNat

/-- Witness for the amended C2: at the default parameters and `inv = 95`,
order 14 is a candidate. -/
theorem candidate_orders_range_witness : 14 ∈ candidate_orders Pbig 95 :=
  (candidate_orders_range Pbig 95 14).mpr (by decide)

/-- C3 is a code bug: on the declared domain point
`T = 1, h = 5, price = 100, M = 0, D = 0` the solver does not complete.  At
the top state `s = 2M` (actual inventory `M`) with `max_demand = 0` the
candidate-order array is empty and `expected_values.min()` raises a numpy
`ValueError` (modelled by `none`), contradicting the claimed totality. -/
theorem recurse_fails_on_zero_demand : recurse ⟨1, 5, 100, 0, 0⟩ = none := by
  with_unfolding_all rfl

/-! ### Claim theorem: the clipping invariant (C4) -/

/-- C4: for every `(inventory, order, demand)` combination, the post-clip
inventory lies in `[-max_inventory, max_inventory]`, the penalty is exactly
`price * 2` when clipping changed the raw value and `0` otherwise, and both
the solver's scenario cost (`scenarioCost`) and the simulation step
(`simStep`) charge that penalty exactly once on top of the
holding/backorder cost computed from the post-clip inventory (the solver
additionally adding the continuation value looked up at the post-clip
state). -/
theorem clipping_penalty_invariant (P : InventoryDP) (vnext : Nat → ℚ)
    (cols : List Col) (inv : Int) (order demand period : Nat) :
    (-(P.max_inventory : Int)
        ≤ (clipPenalty P.max_inventory P.price (inv + order - demand)).1 ∧
      (clipPenalty P.max_inventory P.price (inv + order - demand)).1
        ≤ (P.max_inventory : Int)) ∧
    (clipPenalty P.max_inventory P.price (inv + order - demand)).2
      = (if (clipPenalty P.max_inventory P.price (inv + order - demand)).1
            = inv + order - demand
          then 0 else P.price * 2) ∧
    scenarioCost P vnext inv order demand
      = P.holding_cost
          * max 0 (((clipPenalty P.max_inventory P.price (inv + order - demand)).1 : ℚ))
        + P.price
          * max 0 (-(((clipPenalty P.max_inventory P.price (inv + order - demand)).1 : ℚ)))
        + vnext ((clipPenalty P.max_inventory P.price (inv + order - demand)).1
            + P.max_inventory).toNat
        + (clipPenalty P.max_inventory P.price (inv + order - demand)).2 ∧
    simStep P cols demand period inv
      = ((clipPenalty P.max_inventory P.price
            (inv + (decisionAt cols (inv + P.max_inventory).toNat period) - demand)).1,
          decisionAt cols (inv + P.max_inventory).toNat period,
          P.holding_cost
            * max 0 (((clipPenalty P.max_inventory P.price
                (inv + (decisionAt cols (inv + P.max_inventory).toNat period) - demand)).1 : ℚ))
          + P.price
            * max 0 (-(((clipPenalty P.max_inventory P.price
                (inv + (decisionAt cols (inv + P.max_inventory).toNat period) - demand)).1 : ℚ)))
          + (clipPenalty P.max_inventory P.price
              (inv + (decisionAt cols (inv + P.max_inventory).toNat period) - demand)).2) := by
  refine ⟨?_, ?_, rfl, rfl⟩
  · unfold clipPenalty
    split_ifs <;> constructor <;> omega
  · unfold clipPenalty
    split_ifs with h1 h2 h3 h4 h5
    · exfalso
      have hc : -(P.max_inventory : Int) = inv + order - demand := h2
      omega
    · rfl
    · exfalso
      have hc : (P.max_inventory : Int) = inv + order - demand := h4
      omega
    · rfl
    · rfl
    · exact absurd rfl h5

/-! ### Claim theorems: simulation error handling (C7, C8, C10) -/

/-- C7: `simulate` reports the out-of-range error exactly for starting
inventories outside `[0, max_inventory]`, whatever the solve state; in
particular on a solved instance an in-range start never produces that error,
and an out-of-range start is rejected before any simulation step. -/
theorem simulate_out_of_range_iff (P : InventoryDP) (solved : Option (List Col))
    (init : Int) (dem : Nat → Nat) :
    simulate P solved init dem = .error .outOfRange ↔
      ¬(0 ≤ init ∧ init ≤ (P.max_inventory : Int)) := by
  unfold simulate
  by_cases h : 0 ≤ init ∧ init ≤ (P.max_inventory : Int)
  · rw [if_pos h]
    cases solved <;> simp [h]
  · rw [if_neg h]
    simp [h]

/-- Witness for C7: a solved `Psmall` instance rejects start `-5` with the
out-of-range error, and accepts start `1` (no out-of-range error). -/
theorem simulate_out_of_range_iff_witness :
    simulate Psmall (some colsSmall) (-5) demZero = .error .outOfRange ∧
    simulate Psmall (some colsSmall) 1 demZero ≠ .error .outOfRange := by
  constructor
  · exact (simulate_out_of_range_iff Psmall (some colsSmall) (-5) demZero).mpr (by decide)
  · intro hcon
    exact (by decide : ¬¬((0 : Int) ≤ 1 ∧ (1 : Int) ≤ (Psmall.max_inventory : Int)))
      ((simulate_out_of_range_iff Psmall (some colsSmall) 1 demZero).mp hcon)

/-- C8: on an unsolved instance `simulate` never produces a result, and for
an in-range starting inventory it fails with precisely the missing-solve
precondition error. -/
theorem simulate_before_solve (P : InventoryDP) (init : Int) (dem : Nat → Nat) :
    (∀ out, simulate P none init dem ≠ .ok out) ∧
    (0 ≤ init → init ≤ (P.max_inventory : Int) →
      simulate P none init dem = .error .notSolved) := by
  constructor
  · intro out
    unfold simulate
    by_cases h : 0 ≤ init ∧ init ≤ (P.max_inventory : Int)
    · rw [if_pos h]; simp
    · rw [if_neg h]; simp
  · intro h0 h1
    unfold simulate
    rw [if_pos ⟨h0, h1⟩]

/-- Witness for C8 on unsolved `Psmall` with start `1`. -/
theorem simulate_before_solve_witness :
    simulate Psmall none 1 demZero ≠ .ok (0, [], []) ∧
    simulate Psmall none 1 demZero = .error .notSolved := by
  exact ⟨(simulate_before_solve Psmall 1 demZero).1 (0, [], []),
    (simulate_before_solve Psmall 1 demZero).2 (by decide) (by decide)⟩

/-- C10: when the instance is unsolved AND the starting inventory is out of
range, the out-of-range error wins: the range check of line 189 runs before
the missing-solve check of line 193. -/
theorem simulate_error_precedence (P : InventoryDP) (init : Int) (dem : Nat → Nat)
    (h : ¬(0 ≤ init ∧ init ≤ (P.max_inventory : Int))) :
    simulate P none init dem = .error .outOfRange := by
  unfold simulate
  rw [if_neg h]

/-- Witness for C10: unsolved default-parameter instance, start `-5`. -/
theorem simulate_error_precedence_witness :
    simulate Pbig none (-5) demZero = .error .outOfRange :=
  simulate_error_precedence Pbig (-5) demZero (by decide)

/-! ### Comparative statics in the holding cost (towards C9) -/

/-- `withHolding` keeps the time horizon. -/
theorem withHolding_T (P : InventoryDP) (q : ℚ) :
    (withHolding P q).time_horizon = P.time_horizon := rfl

/-- `withHolding` replaces the holding cost. -/
theorem withHolding_holding (P : InventoryDP) (q : ℚ) :
    (withHolding P q).holding_cost = q := rfl

/-- `withHolding` keeps the price. -/
theorem withHolding_price (P : InventoryDP) (q : ℚ) :
    (withHolding P q).price = P.price := rfl

/-- `withHolding` keeps the inventory bound. -/
theorem withHolding_M (P : InventoryDP) (q : ℚ) :
    (withHolding P q).max_inventory = P.max_inventory := rfl

/-- `withHolding` keeps the demand bound. -/
theorem withHolding_D (P : InventoryDP) (q : ℚ) :
    (withHolding P q).max_demand = P.max_demand := rfl

/-- The clipped inventory in closed form. -/
theorem clipPenalty_fst_eq (M : Nat) (price : ℚ) (r : Int) :
    (clipPenalty M price r).1 = max (-(M : Int)) (min (M : Int) r) := by
  unfold clipPenalty
  split_ifs with h1 h2
  · show -(M : Int) = _
    omega
  · show (M : Int) = _
    omega
  · show r = _
    omega

/-- The clipped inventory is monotone in the raw inventory. -/
theorem clipPenalty_fst_mono (M : Nat) (price : ℚ) {r r' : Int} (h : r ≤ r') :
    (clipPenalty M price r).1 ≤ (clipPenalty M price r').1 := by
  rw [clipPenalty_fst_eq, clipPenalty_fst_eq]
  omega

/-- The clipped inventory is at most `M`. -/
theorem clipPenalty_fst_le (M : Nat) (price : ℚ) (r : Int) :
    (clipPenalty M price r).1 ≤ (M : Int) := by
  rw [clipPenalty_fst_eq]
  omega

/-- The clipped inventory is at least `-M`. -/
theorem clipPenalty_fst_ge (M : Nat) (price : ℚ) (r : Int) :
    -(M : Int) ≤ (clipPenalty M price r).1 := by
  rw [clipPenalty_fst_eq]
  omega

/-- The scenario-cost difference between holding costs `q` and
`P.holding_cost` at the same state: the price, penalty and clipping terms
cancel; what remains is the holding-cost delta on the held inventory plus
the continuation-value delta. -/
theorem scenarioCost_diff (P : InventoryDP) (q : ℚ) (v1 v2 : Nat → ℚ)
    (inv : Int) (o d : Nat) :
    scenarioCost (withHolding P q) v2 inv o d - scenarioCost P v1 inv o d
      = (q - P.holding_cost)
          * max 0 (((clipPenalty P.max_inventory P.price (inv + o - d)).1 : ℚ))
        + (v2 ((clipPenalty P.max_inventory P.price (inv + o - d)).1
              + P.max_inventory).toNat
           - v1 ((clipPenalty P.max_inventory P.price (inv + o - d)).1
              + P.max_inventory).toNat) := by
  simp only [scenarioCost, withHolding_holding, withHolding_price, withHolding_M]
  ring

/-- When the continuation-value difference is nondecreasing in the state, the
scenario-cost difference is nondecreasing in the order. -/
theorem scenarioCost_diff_mono (P : InventoryDP) (q : ℚ)
    (hq : P.holding_cost ≤ q) (v1 v2 : Nat → ℚ)
    (hd : ∀ s s', s ≤ s' → s' ≤ 2 * P.max_inventory → v2 s - v1 s ≤ v2 s' - v1 s')
    (inv : Int) (d : Nat) {o o' : Nat} (h : o ≤ o') :
    scenarioCost (withHolding P q) v2 inv o d - scenarioCost P v1 inv o d
      ≤ scenarioCost (withHolding P q) v2 inv o' d - scenarioCost P v1 inv o' d := by
  rw [scenarioCost_diff, scenarioCost_diff]
  have hraw : inv + (o : Int) - d ≤ inv + (o' : Int) - d := by
    have : (o : Int) ≤ (o' : Int) := Int.ofNat_le.mpr h
    omega
  have h1 := clipPenalty_fst_mono P.max_inventory P.price hraw
  have h2 := clipPenalty_fst_le P.max_inventory P.price (inv + (o' : Int) - d)
  have h3 := clipPenalty_fst_ge P.max_inventory P.price (inv + (o : Int) - d)
  have hmax : max 0 (((clipPenalty P.max_inventory P.price (inv + o - d)).1 : ℚ))
      ≤ max 0 (((clipPenalty P.max_inventory P.price (inv + o' - d)).1 : ℚ)) := by
    apply max_le_max le_rfl
    exact_mod_cast h1
  have hmul : (q - P.holding_cost)
        * max 0 (((clipPenalty P.max_inventory P.price (inv + o - d)).1 : ℚ))
      ≤ (q - P.holding_cost)
        * max 0 (((clipPenalty P.max_inventory P.price (inv + o' - d)).1 : ℚ)) :=
    mul_le_mul_of_nonneg_left hmax (by linarith)
  have hs1 : ((clipPenalty P.max_inventory P.price (inv + o - d)).1
      + P.max_inventory).toNat
      ≤ ((clipPenalty P.max_inventory P.price (inv + o' - d)).1
        + P.max_inventory).toNat := by omega
  have hs2 : ((clipPenalty P.max_inventory P.price (inv + o' - d)).1
      + P.max_inventory).toNat ≤ 2 * P.max_inventory := by omega
  have hv := hd _ _ hs1 hs2
  linarith

/-- Subtraction distributes over the sums of two maps of the same list. -/
theorem sum_map_sub {α : Type} (l : List α) (f g : α → ℚ) :
    (l.map f).sum - (l.map g).sum = (l.map (fun x => f x - g x)).sum := by
  induction l with
  | nil => simp
  | cons x xs ih =>
    simp only [List.map_cons, List.sum_cons]
    rw [← ih]
    ring

/-- When the continuation-value difference is nondecreasing in the state, the
expected-cost difference is nondecreasing in the order. -/
theorem expectedCost_diff_mono (P : InventoryDP) (q : ℚ)
    (hq : P.holding_cost ≤ q) (v1 v2 : Nat → ℚ)
    (hd : ∀ s s', s ≤ s' → s' ≤ 2 * P.max_inventory → v2 s - v1 s ≤ v2 s' - v1 s')
    (inv : Int) {o o' : Nat} (h : o ≤ o') :
    expectedCost (withHolding P q) v2 inv o - expectedCost P v1 inv o
      ≤ expectedCost (withHolding P q) v2 inv o' - expectedCost P v1 inv o' := by
  unfold expectedCost
  rw [withHolding_D]
  rw [div_sub_div_same, div_sub_div_same]
  rw [div_le_div_iff_of_pos_right (by positivity)]
  rw [sum_map_sub, sum_map_sub]
  apply List.sum_le_sum
  intro d _
  exact scenarioCost_diff_mono P q hq v1 v2 hd inv d h

/-- The cost row has one entry per candidate order. -/
theorem cellCosts_length (P : InventoryDP) (v : Nat → ℚ) (inv : Int) :
    (cellCosts P v inv).length = possible_orders P inv := by
  simp [cellCosts, candidate_orders]

/-- The cost row entry at an enumerated order is that order's expected cost. -/
theorem cellCosts_getD (P : InventoryDP) (v : Nat → ℚ) (inv : Int) {t : Nat}
    (h : t < possible_orders P inv) :
    (cellCosts P v inv).getD t 0 = expectedCost P v inv t := by
  unfold cellCosts candidate_orders
  rw [List.getD_eq_getElem _ _ (by simpa using h)]
  simp

/-- Shifting the inventory up by one and the order down by one reaches the
same raw next inventory, hence the same expected cost. -/
theorem expectedCost_shift (P : InventoryDP) (v : Nat → ℚ) (inv : Int) (o : Nat) :
    expectedCost P v (inv + 1) o = expectedCost P v inv (o + 1) := by
  unfold expectedCost
  congr 1
  congr 1
  apply List.map_congr_left
  intro d _
  unfold scenarioCost
  have hr : inv + 1 + (o : Int) - (d : Int) = inv + ((o + 1 : Nat) : Int) - d := by
    push_cast
    ring
  rw [hr]

/-- The cost row at inventory `inv` is the cost of ordering zero followed by
the cost row at inventory `inv + 1` (same raw next inventories). -/
theorem cellCosts_cons (P : InventoryDP) (v : Nat → ℚ) (inv : Int)
    (h : 1 ≤ possible_orders P inv) :
    cellCosts P v inv = expectedCost P v inv 0 :: cellCosts P v (inv + 1) := by
  unfold cellCosts candidate_orders
  have hpo : possible_orders P inv = possible_orders P (inv + 1) + 1 := by
    unfold possible_orders at *
    omega
  rw [hpo, List.range_succ_eq_map, List.map_cons, List.map_map]
  congr 1
  apply List.map_congr_left
  intro o _
  show expectedCost P v inv (o + 1) = expectedCost P v (inv + 1) o
  exact (expectedCost_shift P v inv o).symm

/-- First-occurrence argmins move weakly left when the element-wise
difference between the two lists is nondecreasing in the index. -/
theorem argmin_le_of_diff_mono {l1 l2 : List ℚ} (hlen : l2.length = l1.length)
    (hmono : ∀ i j, i ≤ j → j < l1.length →
      l2.getD i 0 - l1.getD i 0 ≤ l2.getD j 0 - l1.getD j 0)
    {v1 v2 : ℚ} {k1 k2 : Nat}
    (h1 : minArgmin l1 = some (v1, k1)) (h2 : minArgmin l2 = some (v2, k2)) :
    k2 ≤ k1 := by
  obtain ⟨hk1, hg1, hlb1, hf1⟩ := minArgmin_spec h1
  obtain ⟨hk2, hg2, hlb2, hf2⟩ := minArgmin_spec h2
  by_contra hcon
  push_neg at hcon
  have ha := hf2 k1 hcon
  have hb : v1 ≤ l1.getD k2 0 := hlb1 _ (getD_mem_of_lt 0 (by omega))
  have hm := hmono k1 k2 (le_of_lt hcon) (by omega)
  rw [hg1] at hm
  rw [hg2] at hm
  linarith

/-- Key one-step bound: dropping the head candidate from both minimizations
cannot increase the difference of the minima, provided the head difference is
below the difference at the element attaining the second tail minimum. -/
theorem min_sub_min_le {fx gx fr gr m1 m2 : ℚ} (hd : gx - fx ≤ gr - fr)
    (h2 : m2 = gr) (h1 : m1 ≤ fr) :
    min gx m2 - min fx m1 ≤ m2 - m1 := by
  rcases le_total fx m1 with h | h
  · rw [min_eq_left h]
    have hgl := min_le_left gx m2
    linarith
  · rw [min_eq_right h]
    have hgr := min_le_right gx m2
    linarith

/-- One state step: with a nondecreasing continuation-value difference, the
difference of the cell minima is nondecreasing from state `s` to `s + 1`. -/
theorem cell_value_diff_step (P : InventoryDP) (q : ℚ) (hq : P.holding_cost ≤ q)
    (v1 v2 : Nat → ℚ)
    (hd : ∀ t t', t ≤ t' → t' ≤ 2 * P.max_inventory → v2 t - v1 t ≤ v2 t' - v1 t')
    (s : Nat) (m1 m2 m1' m2' : ℚ) (d1 d2 d1' d2' : Nat)
    (h1 : solveCell P v1 s = some (m1, d1))
    (h2 : solveCell (withHolding P q) v2 s = some (m2, d2))
    (h1' : solveCell P v1 (s + 1) = some (m1', d1'))
    (h2' : solveCell (withHolding P q) v2 (s + 1) = some (m2', d2')) :
    m2 - m1 ≤ m2' - m1' := by
  unfold solveCell at h1 h2 h1' h2'
  rw [withHolding_M] at h2 h2'
  have hcast : ((s + 1 : Nat) : Int) - (P.max_inventory : Int)
      = ((s : Nat) : Int) - (P.max_inventory : Int) + 1 := by
    push_cast
    ring
  rw [hcast] at h1' h2'
  set inv : Int := ((s : Nat) : Int) - (P.max_inventory : Int) with hinv
  have hne : 1 ≤ possible_orders P (inv + 1) := by
    by_contra hc
    push_neg at hc
    have hnil : cellCosts P v1 (inv + 1) = [] :=
      List.eq_nil_of_length_eq_zero (by rw [cellCosts_length]; omega)
    rw [hnil] at h1'
    simp [minArgmin] at h1'
  have hpo : 1 ≤ possible_orders P inv := by
    unfold possible_orders at hne ⊢
    omega
  have hpo' : 1 ≤ possible_orders (withHolding P q) inv := hpo
  rw [cellCosts_cons P v1 inv hpo] at h1
  rw [cellCosts_cons (withHolding P q) v2 inv hpo'] at h2
  have hm1 : m1 = min (expectedCost P v1 inv 0) m1' := minArgmin_cons_val h1 h1'
  have hm2 : m2 = min (expectedCost (withHolding P q) v2 inv 0) m2' :=
    minArgmin_cons_val h2 h2'
  obtain ⟨hk2, hg2, _, _⟩ := minArgmin_spec h2'
  obtain ⟨_, _, hlb1, _⟩ := minArgmin_spec h1'
  rw [cellCosts_length] at hk2
  have hk2P : d2' < possible_orders P (inv + 1) := hk2
  have e2 : (cellCosts (withHolding P q) v2 (inv + 1)).getD d2' 0
      = expectedCost (withHolding P q) v2 inv (d2' + 1) := by
    rw [cellCosts_getD _ _ _ hk2]
    exact expectedCost_shift _ v2 inv d2'
  have e1 : (cellCosts P v1 (inv + 1)).getD d2' 0
      = expectedCost P v1 inv (d2' + 1) := by
    rw [cellCosts_getD _ _ _ hk2P]
    exact expectedCost_shift _ v1 inv d2'
  have hg2' : m2' = expectedCost (withHolding P q) v2 inv (d2' + 1) := by
    rw [← e2]
    exact hg2.symm
  have hlbv : m1' ≤ expectedCost P v1 inv (d2' + 1) := by
    rw [← e1]
    exact hlb1 _ (getD_mem_of_lt 0 (by rw [cellCosts_length]; exact hk2P))
  have hdm := expectedCost_diff_mono P q hq v1 v2 hd inv (Nat.zero_le (d2' + 1))
  rw [hm1, hm2]
  exact min_sub_min_le hdm hg2' hlbv

/-- Chained over states: the difference of the cell minima is nondecreasing
in the state index. -/
theorem cell_value_diff_mono (P : InventoryDP) (q : ℚ) (hq : P.holding_cost ≤ q)
    (v1 v2 : Nat → ℚ)
    (hd : ∀ t t', t ≤ t' → t' ≤ 2 * P.max_inventory → v2 t - v1 t ≤ v2 t' - v1 t')
    (m1 m2 : Nat → ℚ) (d1 d2 : Nat → Nat)
    (h1 : ∀ t, t ≤ 2 * P.max_inventory → solveCell P v1 t = some (m1 t, d1 t))
    (h2 : ∀ t, t ≤ 2 * P.max_inventory →
      solveCell (withHolding P q) v2 t = some (m2 t, d2 t)) :
    ∀ s s', s ≤ s' → s' ≤ 2 * P.max_inventory → m2 s - m1 s ≤ m2 s' - m1 s' := by
  have hstep : ∀ t, t + 1 ≤ 2 * P.max_inventory →
      m2 t - m1 t ≤ m2 (t + 1) - m1 (t + 1) := by
    intro t ht
    exact cell_value_diff_step P q hq v1 v2 hd t _ _ _ _ _ _ _ _
      (h1 t (by omega)) (h2 t (by omega)) (h1 (t + 1) ht) (h2 (t + 1) ht)
  intro s s' hss
  induction s', hss using Nat.le_induction with
  | base => intro _; exact le_refl _
  | succ n hsn ih =>
    intro hn
    have hchain := ih (by omega)
    have hlast := hstep n hn
    linarith

/-- With a nondecreasing continuation-value difference, the stored decision
under the larger holding cost is at most the one under the smaller. -/
theorem cell_decision_mono (P : InventoryDP) (q : ℚ) (hq : P.holding_cost ≤ q)
    (v1 v2 : Nat → ℚ)
    (hd : ∀ t t', t ≤ t' → t' ≤ 2 * P.max_inventory → v2 t - v1 t ≤ v2 t' - v1 t')
    (t : Nat) (m1 m2 : ℚ) (d1 d2 : Nat)
    (h1 : solveCell P v1 t = some (m1, d1))
    (h2 : solveCell (withHolding P q) v2 t = some (m2, d2)) :
    d2 ≤ d1 := by
  unfold solveCell at h1 h2
  rw [withHolding_M] at h2
  set inv : Int := ((t : Nat) : Int) - (P.max_inventory : Int) with hinv
  refine argmin_le_of_diff_mono ?_ ?_ h1 h2
  · rw [cellCosts_length, cellCosts_length]
    rfl
  · intro i j hij hj
    rw [cellCosts_length] at hj
    have hiP : i < possible_orders P inv := by omega
    rw [cellCosts_getD _ _ _ hiP, cellCosts_getD _ _ _ hj,
      cellCosts_getD _ _ _ (show i < possible_orders (withHolding P q) inv from hiP),
      cellCosts_getD _ _ _ (show j < possible_orders (withHolding P q) inv from hj)]
    exact expectedCost_diff_mono P q hq v1 v2 hd inv hij

/-- Head-column lookup on a cons. -/
theorem headVals_cons (c : Col) (r : List Col) (t : Nat) :
    headVals (c :: r) t = c.1.getD t 0 := by
  unfold headVals
  rw [List.getD_cons_zero]

/-- Decision lookup in the head column. -/
theorem decisionAt_cons_zero (c : Col) (r : List Col) (s : Nat) :
    decisionAt (c :: r) s 0 = c.2.getD s 0 := by
  unfold decisionAt
  rw [List.getD_cons_zero]

/-- Decision lookup past the head column. -/
theorem decisionAt_cons_succ (c : Col) (r : List Col) (s i : Nat) :
    decisionAt (c :: r) s (i + 1) = decisionAt r s i := by
  unfold decisionAt
  rw [List.getD_cons_succ]

/-- Backward induction over the periods: raising the holding cost from
`P.holding_cost` to `q` keeps the head value-column difference nondecreasing
in the state and never raises any stored decision. -/
theorem solveCols_mono (P : InventoryDP) (q : ℚ) (hq : P.holding_cost ≤ q) :
    ∀ k cols1 cols2, solveCols P k = some cols1 →
      solveCols (withHolding P q) k = some cols2 →
      (∀ s s', s ≤ s' → s' ≤ 2 * P.max_inventory →
        headVals cols2 s - headVals cols1 s ≤ headVals cols2 s' - headVals cols1 s') ∧
      (∀ i, i < k → ∀ s, s ≤ 2 * P.max_inventory →
        decisionAt cols2 s i ≤ decisionAt cols1 s i) := by
  intro k
  induction k with
  | zero =>
    intro cols1 cols2 h1 h2
    simp only [solveCols, Option.some.injEq] at h1 h2
    subst h1
    subst h2
    constructor
    · intro s s' _ _
      rw [headVals_cons, headVals_cons, headVals_cons, headVals_cons]
      rw [replicate_getD, replicate_getD, replicate_getD, replicate_getD]
    · intro i hi
      omega
  | succ k ih =>
    intro cols1 cols2 h1 h2
    obtain ⟨rest1, col1, hr1, hp1, rfl⟩ := solveCols_succ P k cols1 h1
    obtain ⟨rest2, col2, hr2, hp2, rfl⟩ := solveCols_succ (withHolding P q) k cols2 h2
    obtain ⟨hd, hdec⟩ := ih rest1 rest2 hr1 hr2
    obtain ⟨_, _, hcell1⟩ := solvePeriod_spec P (headVals rest1) col1 hp1
    obtain ⟨_, _, hcell2⟩ := solvePeriod_spec (withHolding P q) (headVals rest2) col2 hp2
    have hcell2' : ∀ t, t ≤ 2 * P.max_inventory →
        solveCell (withHolding P q) (headVals rest2) t
          = some (col2.1.getD t 0, col2.2.getD t 0) := fun t ht => hcell2 t ht
    constructor
    · intro s s' hss hs'
      rw [headVals_cons, headVals_cons, headVals_cons, headVals_cons]
      exact cell_value_diff_mono P q hq (headVals rest1) (headVals rest2) hd
        (fun t => col1.1.getD t 0) (fun t => col2.1.getD t 0)
        (fun t => col1.2.getD t 0) (fun t => col2.2.getD t 0)
        hcell1 hcell2' s s' hss hs'
    · intro i hi s hs
      cases i with
      | zero =>
        rw [decisionAt_cons_zero, decisionAt_cons_zero]
        exact cell_decision_mono P q hq (headVals rest1) (headVals rest2) hd s
          (col1.1.getD s 0) (col2.1.getD s 0) _ _ (hcell1 s hs) (hcell2' s hs)
      | succ i' =>
        rw [decisionAt_cons_succ, decisionAt_cons_succ]
        exact hdec i' (by omega) s hs

/-! ### Claim theorems: monotonicity in the holding cost (C9) -/

/-- C9, counterexample: `Psteep` differs from `Psmall` only by a larger
holding cost (300 instead of 5), yet at state 1 (actual inventory 0, below
the capacity 1) and period 0 the optimal order drops from 1 to 0 — the
optimal order under the larger holding cost IS below the one under the
smaller holding cost, refuting the claimed direction. -/
theorem holding_cost_monotonicity_counterexample :
    Psmall.holding_cost < Psteep.holding_cost ∧
    Psteep.time_horizon = Psmall.time_horizon ∧
    Psteep.price = Psmall.price ∧
    Psteep.max_inventory = Psmall.max_inventory ∧
    Psteep.max_demand = Psmall.max_demand ∧
    recurse Psmall = some colsSmall ∧
    recurse Psteep = some colsSteep ∧
    (1 : Nat) < 2 * Psmall.max_inventory ∧
    decisionAt colsSteep 1 0 < decisionAt colsSmall 1 0 := by
  refine ⟨by norm_num [Psmall, Psteep], rfl, rfl, rfl, rfl,
    by with_unfolding_all rfl, by with_unfolding_all rfl, by decide, ?_⟩
  decide

/-- C9, amended: increasing the holding cost (all other parameters fixed)
never INCREASES the optimal order quantity: whenever both solves complete,
at every period and every state below capacity the decision under the larger
holding cost is at most the decision under the smaller one. -/
theorem holding_cost_order_antitone (P1 P2 : InventoryDP) (cols1 cols2 : List Col)
    (hT : P2.time_horizon = P1.time_horizon) (hpr : P2.price = P1.price)
    (hM : P2.max_inventory = P1.max_inventory) (hD : P2.max_demand = P1.max_demand)
    (hh : P1.holding_cost < P2.holding_cost)
    (h1 : recurse P1 = some cols1) (h2 : recurse P2 = some cols2)
    (p : Nat) (hp : p < P1.time_horizon) (s : Nat) (hs : s < 2 * P1.max_inventory) :
    decisionAt cols2 s p ≤ decisionAt cols1 s p := by
  have hP2 : P2 = withHolding P1 P2.holding_cost := by
    cases P1
    cases P2
    dsimp only at hT hpr hM hD
    subst hT
    subst hpr
    subst hM
    subst hD
    rfl
  rw [hP2] at h2
  exact (solveCols_mono P1 P2.holding_cost (le_of_lt hh) P1.time_horizon cols1 cols2
    h1 h2).2 p hp s (by omega)

/-- Witness for the amended C9: raising the holding cost of `Psmall` from 5
to 6 keeps the optimal order at state 1, period 0 from increasing. -/
theorem holding_cost_order_antitone_witness :
    decisionAt colsMid 1 0 ≤ decisionAt colsSmall 1 0 :=
  holding_cost_order_antitone Psmall Pmid colsSmall colsMid rfl rfl rfl rfl
    (by norm_num [Psmall, Pmid]) (by with_unfolding_all rfl)
    (by with_unfolding_all rfl) 0 (by decide) 1 (by decide)
